import Mathlib

/-!
Verification of the patch-integrity and repository-lifecycle subsystem.

The diff validator and repair engine (patch_validator.py) is embedded as
executable functions over lists of characters: a diff text is a
`List Char`, a line is a `List Char` without line feeds.  The repository
manager (repo_manager.py) drives external subprocesses, so it is embedded
as a deterministic function of an explicit environment describing the
outcome of each subprocess invocation, recording which commands ran.
-/

abbrev Line := List Char

/-- Tests whether the second list starts with the first (str.startswith). -/
def startsWithL (p l : List Char) : Bool :=
  match p, l with
  | [], _ => true
  | _ :: _, [] => false
  | c :: ps, d :: ls => c == d && startsWithL ps ls

/-- Substring containment, as the Python `in` operator on strings. -/
def containsSub (hay needle : List Char) : Bool :=
  startsWithL needle hay ||
    match hay with
    | [] => false
    | _ :: t => containsSub t needle

/-- str.split on a line feed: always returns at least one piece. -/
def splitLines : List Char → List Line
  | [] => [[]]
  | c :: rest =>
    if c = '\n' then [] :: splitLines rest
    else
      match splitLines rest with
      | [] => [[c]]
      | l :: ls => (c :: l) :: ls

/-- Joining lines with a line feed, as str.join. -/
def joinLines : List Line → List Char
  | [] => []
  | [l] => l
  | l :: l2 :: ls => l ++ '\n' :: joinLines (l2 :: ls)

/-- One left-to-right pass replacing each carriage-return line-feed pair by
a line feed, as patch.replace in repair_patch. -/
def removeCRLF : List Char → List Char
  | [] => []
  | [c] => [c]
  | c :: c2 :: rest =>
    if c = '\r' ∧ c2 = '\n' then '\n' :: removeCRLF rest
    else c :: removeCRLF (c2 :: rest)

/-- Appends a final line feed unless one is already present, as the
endswith check in repair_patch. -/
def ensureNL (p : List Char) : List Char :=
  if p.getLast? = some '\n' then p else p ++ [ '\n' ]

/-- Maximal run of decimal digits at the front, with the remainder. -/
def takeDigits : List Char → List Char × List Char
  | [] => ([], [])
  | c :: rest =>
    if c.isDigit then
      let (ds, r) := takeDigits rest
      (c :: ds, r)
    else ([], c :: rest)

/-- Numeric value of a run of decimal digits, as int() on the group. -/
def natFromDigits (ds : List Char) : Nat :=
  ds.foldl (fun a c => a * 10 + (c.toNat - 48)) 0

/-- The decimal digit character for a value below ten. -/
def digitChar (n : Nat) : Char :=
  if n = 0 then '0'
  else if n = 1 then '1'
  else if n = 2 then '2'
  else if n = 3 then '3'
  else if n = 4 then '4'
  else if n = 5 then '5'
  else if n = 6 then '6'
  else if n = 7 then '7'
  else if n = 8 then '8'
  else '9'

/-- Decimal digits of a number, most significant first (fuel version). -/
def natToCharsAux : Nat → Nat → List Char
  | 0, _ => []
  | fuel + 1, n =>
    if n < 10 then [digitChar n]
    else natToCharsAux fuel (n / 10) ++ [digitChar (n % 10)]

/-- Decimal digits of a number, as the f-string rendering of a count. -/
def natToChars (n : Nat) : List Char := natToCharsAux (n + 1) n

/-- Consumes an expected literal run of characters, returning the rest. -/
def expectChars : List Char → List Char → Option (List Char)
  | [], l => some l
  | e :: es, c :: l => if c = e then expectChars es l else none
  | _ :: _, [] => none

/-- Consumes one optional comma, for the comma in the hunk header regex. -/
def skipComma (l : List Char) : List Char :=
  match l with
  | [] => []
  | c :: t => if c = ',' then t else c :: t

/-- Anchored match of the hunk header regex used by repair_patch and by
the hunk repair step, returning the four digit groups and the trailing
context text.  Greedy digit runs and the optional commas behave exactly
as the regex backtracking would. -/
def parseHunkHeader (l : Line) :
    Option (List Char × List Char × List Char × List Char × List Char) :=
  match expectChars [ '@', '@', ' ', '-' ] l with
  | none => none
  | some r0 =>
    match takeDigits r0 with
    | ([], _) => none
    | (c1 :: g1, r1) =>
      match takeDigits (skipComma r1) with
      | (g2, r3) =>
        match expectChars [ ' ', '+' ] r3 with
        | none => none
        | some r4 =>
          match takeDigits r4 with
          | ([], _) => none
          | (c3 :: g3, r5) =>
            match takeDigits (skipComma r5) with
            | (g4, r7) =>
              match expectChars [ ' ', '@', '@' ] r7 with
              | none => none
              | some ctx => some (c1 :: g1, g2, c3 :: g3, g4, ctx)

/-- Contribution of one body line to the recomputed old count: removed
and context lines count, empty and other lines are ignored. -/
def lineOldWeight : Line → Nat
  | [] => 0
  | c :: _ =>
    if c = '-' then 1 else if c = '+' then 0 else if c = ' ' then 1 else 0

/-- Contribution of one body line to the recomputed new count: added
and context lines count, empty and other lines are ignored. -/
def lineNewWeight : Line → Nat
  | [] => 0
  | c :: _ =>
    if c = '-' then 0 else if c = '+' then 1 else if c = ' ' then 1 else 0

/-- Recomputed old count of a hunk body, as the counting loop. -/
def countOld (body : List Line) : Nat := (body.map lineOldWeight).sum

/-- Recomputed new count of a hunk body, as the counting loop. -/
def countNew (body : List Line) : Nat := (body.map lineNewWeight).sum

/-- The rebuilt hunk header f-string, keeping the original start offsets
and trailing context while substituting the recomputed counts. -/
def mkHunkHeader (a c b d : Nat) (ctx : List Char) : Line :=
  '@' :: '@' :: ' ' :: '-' ::
    (natToChars a ++ (',' :: (natToChars c ++ (' ' :: '+' ::
      (natToChars b ++ (',' :: (natToChars d ++ (' ' :: '@' :: '@' :: ctx))))))))

/-- Repair of a single hunk (header and body): reparse the header,
recount the body, rebuild the header, and drop body lines made of a
single space, as the _repair_hunk static method. -/
def repairHunk (hunkLines : List Line) : List Line :=
  match hunkLines with
  | [] => []
  | header :: body =>
    match parseHunkHeader header with
    | none => header :: body
    | some (g1, _, g3, _, ctx) =>
      mkHunkHeader (natFromDigits g1) (countOld body)
          (natFromDigits g3) (countNew body) ctx ::
        body.filter (fun l => !(l == [ ' ' ]))

/-- A line starting the next hunk, as startswith on two at signs. -/
def isHunkStart (l : Line) : Bool := startsWithL [ '@', '@' ] l

/-- A line starting the next file diff, as startswith on diff --git. -/
def isDiffStart (l : Line) : Bool := startsWithL ("diff --git").data l

/-- A line that stays inside the current hunk body. -/
def notBoundary (l : Line) : Bool := !(isHunkStart l) && !(isDiffStart l)

/-- The main line-processing loop of repair_patch (fuel version): lines
outside hunks are copied, a line matching the hunk header regex starts a
hunk extending to the next hunk or file header, and each hunk is
repaired. -/
def processLinesAux : Nat → List Line → List Line
  | 0, _ => []
  | _ + 1, [] => []
  | fuel + 1, line :: rest =>
    if isHunkStart line then
      match parseHunkHeader line with
      | some _ =>
        repairHunk (line :: rest.takeWhile notBoundary) ++
          processLinesAux fuel (rest.dropWhile notBoundary)
      | none => line :: processLinesAux fuel rest
    else line :: processLinesAux fuel rest

/-- The main line-processing loop of repair_patch. -/
def processLines (ls : List Line) : List Line := processLinesAux ls.length ls

/-- repair_patch: normalize line endings, force a final line feed, split
into lines, process every hunk, and join the lines back together. -/
def repair_patch (patch : List Char) : List Char :=
  joinLines (processLines (splitLines (ensureNL (removeCRLF patch))))

/-- The dictionary returned by validate_patch. -/
structure ValidationResult where
  valid : Bool
  issues : List String
  has_diff_header : Bool
  has_hunks : Bool
deriving DecidableEq

/-- validate_patch: four independent checks, each appending one issue,
with validity defined as the absence of issues. -/
def validate_patch (patch : List Char) : ValidationResult :=
  let has_diff_header := startsWithL ("diff --git").data patch
  let issues1 : List String :=
    if has_diff_header then [] else ["Missing \x27diff --git\x27 header"]
  let has_file_markers :=
    containsSub patch ("---").data && containsSub patch ("+++").data
  let issues2 :=
    issues1 ++ if has_file_markers then [] else ["Missing file markers (--- / +++)"]
  let has_hunks := containsSub patch ("@@").data
  let issues3 :=
    issues2 ++ if has_hunks then [] else ["No hunks found (missing @@)"]
  let has_crlf := containsSub patch [ '\r', '\n' ]
  let issues4 :=
    issues3 ++ if has_crlf then ["Contains CRLF line endings (should be LF)"] else []
  { valid := issues4.length == 0
    issues := issues4
    has_diff_header := has_diff_header
    has_hunks := has_hunks }

/-- The hunks of a diff text, listed as header line and body lines, using
the same segmentation as the repair loop (fuel version). -/
def hunksOfAux : Nat → List Line → List (Line × List Line)
  | 0, _ => []
  | _ + 1, [] => []
  | fuel + 1, line :: rest =>
    if isHunkStart line then
      match parseHunkHeader line with
      | some _ =>
        (line, rest.takeWhile notBoundary) ::
          hunksOfAux fuel (rest.dropWhile notBoundary)
      | none => hunksOfAux fuel rest
    else hunksOfAux fuel rest

/-- The hunks of a diff text, header line paired with body lines. -/
def hunksOf (ls : List Line) : List (Line × List Line) := hunksOfAux ls.length ls

/-- A text ending in exactly one line feed: a final line feed that is not
immediately preceded by another. -/
def endsExactlyOneLF (l : List Char) : Bool :=
  l.getLast? == some '\n' && !(l.dropLast.getLast? == some '\n')

/-- Every carriage return in the text is immediately followed by a line
feed, so the single replace pass removes every carriage return. -/
def crFollowed : List Char → Bool
  | [] => true
  | c :: rest =>
    if c = '\r' then (rest.head? == some '\n') && crFollowed rest
    else crFollowed rest

/-!
Repository manager (repo_manager.py).  Every repository operation is a
blocking subprocess call, so get_repo, apply_patch and reset_repo are
embedded as deterministic functions of an environment recording the
outcome of each subprocess invocation, together with the filesystem fact
they consult (whether a directory exists at the derived cache path).
-/

/-- Outcome of one subprocess.run call made with check=True and a
timeout: normal return, CalledProcessError, or TimeoutExpired. -/
inductive ProcOutcome | ok | fail | timedOut
deriving DecidableEq

/-- The error that escapes a failing get_repo call. -/
inductive RepoError | cloneFailed | cloneTimedOut | checkoutFailed | fetchFailed
deriving DecidableEq

/-- Environment of one get_repo call: the cache state on entry and the
outcome of each subprocess it may run. -/
structure CloneEnv where
  cachedAtPath : Bool
  cloneShallow : ProcOutcome
  cloneFull : ProcOutcome
  leftoverOnFail : Bool
  checkoutFirst : Bool
  fetchDeep : Bool
  checkoutSecond : Bool
deriving DecidableEq

instance exceptDecEq {ε α : Type} [DecidableEq ε] [DecidableEq α] :
    DecidableEq (Except ε α) := fun x y =>
  match x, y with
  | Except.ok a, Except.ok b =>
    if h : a = b then isTrue (by rw [h])
    else isFalse (by intro hc; cases hc; exact h rfl)
  | Except.error a, Except.error b =>
    if h : a = b then isTrue (by rw [h])
    else isFalse (by intro hc; cases hc; exact h rfl)
  | Except.ok _, Except.error _ => isFalse (by intro hc; cases hc)
  | Except.error _, Except.ok _ => isFalse (by intro hc; cases hc)

/-- Observable outcome of a get_repo call: the returned path or escaped
error, whether a directory exists at the derived path afterwards, and
whether any clone or checkout subprocess was run. -/
structure GetRepoResult where
  result : Except RepoError (List Char)
  dirAtPath : Bool
  cloned : Bool
  checkedOut : Bool
deriving DecidableEq

/-- Replacing every slash by an underscore, as repo.replace. -/
def sanitizeRepoName (r : List Char) : List Char :=
  r.map (fun c => if c = '/' then '_' else c)

/-- The cache path derived by get_repo: the cache directory, the
sanitized repository name, and the first eight characters of the commit
hash. -/
def derivePath (cacheDir repoName commit : List Char) : List Char :=
  cacheDir ++ '/' :: sanitizeRepoName repoName ++ '/' :: commit.take 8

/-- The checkout phase of get_repo, entered once a clone has succeeded:
checkout, and on failure one fetch with deepened history followed by a
second checkout; any remaining failure propagates.  The clone has
created the directory, and no branch removes it. -/
def checkoutPhase (env : CloneEnv) (path : List Char) : GetRepoResult :=
  if env.checkoutFirst then ⟨Except.ok path, true, true, true⟩
  else if env.fetchDeep then
    if env.checkoutSecond then ⟨Except.ok path, true, true, true⟩
    else ⟨Except.error RepoError.checkoutFailed, true, true, true⟩
  else ⟨Except.error RepoError.fetchFailed, true, true, true⟩

/-- get_repo: return the derived path immediately when a directory
exists there; otherwise clone (shallow, retried without the depth limit
on timeout) and check out the commit.  Failures propagate and no branch
removes the directory the clone may have created. -/
def get_repo (env : CloneEnv) (cacheDir repoName commit : List Char) :
    GetRepoResult :=
  let path := derivePath cacheDir repoName commit
  if env.cachedAtPath then ⟨Except.ok path, true, false, false⟩
  else
    match env.cloneShallow with
    | ProcOutcome.ok => checkoutPhase env path
    | ProcOutcome.fail =>
      ⟨Except.error RepoError.cloneFailed, env.leftoverOnFail, true, false⟩
    | ProcOutcome.timedOut =>
      match env.cloneFull with
      | ProcOutcome.ok => checkoutPhase env path
      | ProcOutcome.fail =>
        ⟨Except.error RepoError.cloneFailed, env.leftoverOnFail, true, false⟩
      | ProcOutcome.timedOut =>
        ⟨Except.error RepoError.cloneTimedOut, env.leftoverOnFail, true, false⟩

/-- The commands apply_patch may run. -/
inductive ApplyCmd | applyCheck | applyReal
deriving DecidableEq

/-- The dictionary returned by apply_patch. -/
structure ApplyResult where
  success : Bool
  error : Option (List Char)
deriving DecidableEq

/-- Behaviour of git apply at a given working tree and patch: the
returncode and diagnostic of the non-mutating check run, and whether the
mutating run raises, the tree it leaves behind, and its diagnostic. -/
structure GitApply (Tree : Type) where
  checkReturn : Tree → List Char → Nat
  checkStderr : Tree → List Char → List Char
  realRaises : Tree → List Char → Bool
  realTreeAfter : Tree → List Char → Tree
  realStderr : Tree → List Char → List Char

/-- apply_patch: run the non-mutating check; on returncode zero run the
mutating apply (reporting a raised error as a failure result), otherwise
return a failure carrying the raw stderr of the check without running
the mutating step.  The result is the tree afterwards, the returned
dictionary, and the list of git commands run. -/
def apply_patch {Tree : Type} (g : GitApply Tree) (t : Tree)
    (patch : List Char) : Tree × ApplyResult × List ApplyCmd :=
  if g.checkReturn t patch = 0 then
    if g.realRaises t patch then
      (g.realTreeAfter t patch, ⟨false, some (g.realStderr t patch)⟩,
        [ApplyCmd.applyCheck, ApplyCmd.applyReal])
    else
      (g.realTreeAfter t patch, ⟨true, none⟩,
        [ApplyCmd.applyCheck, ApplyCmd.applyReal])
  else
    (t, ⟨false, some (g.checkStderr t patch)⟩, [ApplyCmd.applyCheck])

/-- The two subprocess steps reset_repo runs. -/
inductive ResetStep | resetHard | cleanFdx
deriving DecidableEq

/-- reset_repo: discard tracked modifications, then delete untracked and
ignored files, both with check=True so the first failure propagates and
skips what follows.  Returns the outcome and the list of steps run. -/
def reset_repo (resetOk cleanOk : Bool) : Except Unit Unit × List ResetStep :=
  if resetOk then
    if cleanOk then (Except.ok (), [ResetStep.resetHard, ResetStep.cleanFdx])
    else (Except.error (), [ResetStep.resetHard, ResetStep.cleanFdx])
  else (Except.error (), [ResetStep.resetHard])

/-!
Lemmas about the repair pipeline, leading to its unfolding equations,
the header roundtrip, and the preservation properties.
-/

theorem processLinesAux_congr : ∀ (f g : Nat) (ls : List Line),
    ls.length ≤ f → ls.length ≤ g →
    processLinesAux f ls = processLinesAux g ls := by
  intro f
  induction f with
  | zero =>
    intro g ls hf _
    have hnil : ls = [] := List.eq_nil_of_length_eq_zero (Nat.le_zero.mp hf)
    subst hnil
    cases g <;> rfl
  | succ f ih =>
    intro g ls hf hg
    cases ls with
    | nil => cases g <;> rfl
    | cons line rest =>
      cases g with
      | zero => simp at hg
      | succ g =>
        simp only [List.length_cons, Nat.succ_le_succ_iff] at hf hg
        simp only [processLinesAux]
        by_cases hh : isHunkStart line = true
        · simp only [hh, if_true]
          cases hp : parseHunkHeader line with
          | some _ =>
            have hl : (rest.dropWhile notBoundary).length ≤ rest.length :=
              (List.dropWhile_sublist notBoundary).length_le
            rw [ih g _ (Nat.le_trans hl hf) (Nat.le_trans hl hg)]
          | none => rw [ih g rest hf hg]
        · simp only [Bool.not_eq_true] at hh
          simp only [hh, Bool.false_eq_true, if_false]
          rw [ih g rest hf hg]

theorem processLines_cons_hunk (line : Line) (rest : List Line)
    (g : List Char × List Char × List Char × List Char × List Char)
    (h1 : isHunkStart line = true) (h2 : parseHunkHeader line = some g) :
    processLines (line :: rest) =
      repairHunk (line :: rest.takeWhile notBoundary) ++
        processLines (rest.dropWhile notBoundary) := by
  unfold processLines
  simp only [List.length_cons, processLinesAux, h1, h2, if_true]
  rw [processLinesAux_congr rest.length (rest.dropWhile notBoundary).length _
    (List.dropWhile_sublist notBoundary).length_le (Nat.le_refl _)]

theorem processLines_cons_copy (line : Line) (rest : List Line)
    (h : isHunkStart line = false ∨ parseHunkHeader line = none) :
    processLines (line :: rest) = line :: processLines rest := by
  unfold processLines
  simp only [List.length_cons, processLinesAux]
  rcases h with h | h
  · simp only [h, Bool.false_eq_true, if_false]
  · by_cases hh : isHunkStart line = true
    · simp only [hh, if_true, h]
    · simp only [Bool.not_eq_true] at hh
      simp only [hh, Bool.false_eq_true, if_false]

theorem repairHunk_cons_of_parse (header : Line) (body : List Line)
    (g1 g2 g3 g4 ctx : List Char)
    (h : parseHunkHeader header = some (g1, g2, g3, g4, ctx)) :
    repairHunk (header :: body) =
      mkHunkHeader (natFromDigits g1) (countOld body)
          (natFromDigits g3) (countNew body) ctx ::
        body.filter (fun l => !(l == [ ' ' ])) := by
  simp only [repairHunk, h]

theorem digitChar_isDigit (n : Nat) : (digitChar n).isDigit = true := by
  unfold digitChar
  repeat' split
  all_goals decide

theorem digitChar_val (n : Nat) (h : n < 10) : (digitChar n).toNat - 48 = n := by
  unfold digitChar
  interval_cases n <;> decide

theorem natToCharsAux_congr : ∀ (f g n : Nat), n < f → n < g →
    natToCharsAux f n = natToCharsAux g n := by
  intro f
  induction f with
  | zero => intro g n hf; omega
  | succ f ih =>
    intro g n hf hg
    cases g with
    | zero => omega
    | succ g =>
      simp only [natToCharsAux]
      by_cases h10 : n < 10
      · simp only [h10, if_true]
      · simp only [h10, if_false]
        have hd : n / 10 < n := Nat.div_lt_self (by omega) (by omega)
        rw [ih g (n / 10) (by omega) (by omega)]

theorem natToChars_eq (n : Nat) :
    natToChars n =
      if n < 10 then [digitChar n]
      else natToChars (n / 10) ++ [digitChar (n % 10)] := by
  have hstep : natToChars n =
      if n < 10 then [digitChar n]
      else natToCharsAux n (n / 10) ++ [digitChar (n % 10)] := rfl
  rw [hstep]
  by_cases h10 : n < 10
  · simp [h10]
  · simp only [h10, if_false]
    have hd : n / 10 < n := Nat.div_lt_self (by omega) (by omega)
    rw [natToCharsAux_congr n (n / 10 + 1) (n / 10) hd (by omega)]
    rfl

theorem natToChars_ne_nil (n : Nat) : natToChars n ≠ [] := by
  rw [natToChars_eq]
  by_cases h10 : n < 10
  · simp [h10]
  · simp only [h10, if_false]
    intro h
    exact absurd h (by simp)

theorem natToChars_digits (n : Nat) : ∀ c ∈ natToChars n, c.isDigit = true := by
  induction n using Nat.strong_induction_on with
  | _ n ih =>
    rw [natToChars_eq]
    by_cases h10 : n < 10
    · simp only [h10, if_true, List.mem_singleton]
      intro c hc
      subst hc
      exact digitChar_isDigit n
    · simp only [h10, if_false, List.mem_append, List.mem_singleton]
      intro c hc
      rcases hc with hc | hc
      · exact ih (n / 10) (Nat.div_lt_self (by omega) (by omega)) c hc
      · subst hc
        exact digitChar_isDigit (n % 10)

theorem natFromDigits_concat (ds : List Char) (c : Char) :
    natFromDigits (ds ++ [c]) = natFromDigits ds * 10 + (c.toNat - 48) := by
  unfold natFromDigits
  rw [List.foldl_append]
  rfl

theorem natFromDigits_natToChars (n : Nat) :
    natFromDigits (natToChars n) = n := by
  induction n using Nat.strong_induction_on with
  | _ n ih =>
    rw [natToChars_eq]
    by_cases h10 : n < 10
    · simp only [h10, if_true]
      show 0 * 10 + ((digitChar n).toNat - 48) = n
      rw [digitChar_val n h10]
      omega
    · simp only [h10, if_false]
      rw [natFromDigits_concat, ih (n / 10) (Nat.div_lt_self (by omega) (by omega)),
        digitChar_val (n % 10) (by omega)]
      omega

theorem expectChars_append (es l : List Char) :
    expectChars es (es ++ l) = some l := by
  induction es with
  | nil => rfl
  | cons e es ih => simp [expectChars, ih]

theorem expectChars_suffix :
    ∀ (es l r : List Char), expectChars es l = some r → List.IsSuffix r l := by
  intro es
  induction es with
  | nil =>
    intro l r h
    simp only [expectChars, Option.some.injEq] at h
    subst h
    exact List.suffix_refl l
  | cons e es ih =>
    intro l r h
    cases l with
    | nil => cases h
    | cons c t =>
      simp only [expectChars] at h
      by_cases hc : c = e
      · subst hc
        simp only [if_true] at h
        exact (ih t r h).trans (List.suffix_cons c t)
      · simp [hc] at h

theorem takeDigits_suffix : ∀ (l : List Char), List.IsSuffix (takeDigits l).2 l := by
  intro l
  induction l with
  | nil => exact List.suffix_refl []
  | cons c t ih =>
    simp only [takeDigits]
    by_cases hc : c.isDigit = true
    · simp only [hc, if_true]
      exact ih.trans (List.suffix_cons c t)
    · simp only [hc, Bool.false_eq_true, if_false]
      exact List.suffix_refl _

theorem skipComma_comma (t : List Char) : skipComma (',' :: t) = t := by
  simp [skipComma]

theorem skipComma_suffix (l : List Char) : List.IsSuffix (skipComma l) l := by
  cases l with
  | nil => exact List.suffix_refl []
  | cons c t =>
    simp only [skipComma]
    by_cases hc : c = ','
    · simp only [hc, if_true]
      exact List.suffix_cons ',' t
    · simp only [hc, if_false]
      exact List.suffix_refl _

theorem takeDigits_all_digits (ds : List Char)
    (hds : ∀ x ∈ ds, x.isDigit = true) :
    ∀ (c : Char) (r : List Char), c.isDigit = false →
      takeDigits (ds ++ c :: r) = (ds, c :: r) := by
  induction ds with
  | nil =>
    intro c r hc
    simp [takeDigits, hc]
  | cons d ds ih =>
    intro c r hc
    have hd : d.isDigit = true := hds d (List.mem_cons_self d ds)
    have hrec := ih (fun x hx => hds x (List.mem_cons_of_mem d hx)) c r hc
    simp only [List.cons_append, takeDigits, hd, if_true, List.append_eq, hrec]

theorem expectChars4 (x : List Char) :
    expectChars [ '@', '@', ' ', '-' ] ('@' :: '@' :: ' ' :: '-' :: x) = some x := by
  simp [expectChars]

theorem expectChars2 (x : List Char) :
    expectChars [ ' ', '+' ] (' ' :: '+' :: x) = some x := by
  simp [expectChars]

theorem expectChars3 (x : List Char) :
    expectChars [ ' ', '@', '@' ] (' ' :: '@' :: '@' :: x) = some x := by
  simp [expectChars]

theorem parseHunkHeader_parts (A C B D ctx : List Char)
    (hAne : A ≠ []) (hBne : B ≠ [])
    (hAd : ∀ x ∈ A, x.isDigit = true) (hCd : ∀ x ∈ C, x.isDigit = true)
    (hBd : ∀ x ∈ B, x.isDigit = true) (hDd : ∀ x ∈ D, x.isDigit = true) :
    parseHunkHeader ('@' :: '@' :: ' ' :: '-' ::
      (A ++ (',' :: (C ++ (' ' :: '+' ::
        (B ++ (',' :: (D ++ (' ' :: '@' :: '@' :: ctx))))))))) =
      some (A, C, B, D, ctx) := by
  obtain ⟨a1, as, rfl⟩ := List.exists_cons_of_ne_nil hAne
  obtain ⟨b1, bs, rfl⟩ := List.exists_cons_of_ne_nil hBne
  have hta := takeDigits_all_digits (a1 :: as) hAd ','
    (C ++ (' ' :: '+' ::
      ((b1 :: bs) ++ (',' :: (D ++ (' ' :: '@' :: '@' :: ctx)))))) (by decide)
  have htc := takeDigits_all_digits C hCd ' '
    ('+' :: ((b1 :: bs) ++ (',' :: (D ++ (' ' :: '@' :: '@' :: ctx))))) (by decide)
  have htb := takeDigits_all_digits (b1 :: bs) hBd ','
    (D ++ (' ' :: '@' :: '@' :: ctx)) (by decide)
  have htd := takeDigits_all_digits D hDd ' ' ('@' :: '@' :: ctx) (by decide)
  simp only [parseHunkHeader, expectChars4, hta, skipComma_comma, htc,
    expectChars2, htb, htd, expectChars3]

theorem parseHunkHeader_mkHunkHeader (a c b d : Nat) (ctx : List Char) :
    parseHunkHeader (mkHunkHeader a c b d ctx) =
      some (natToChars a, natToChars c, natToChars b, natToChars d, ctx) := by
  unfold mkHunkHeader
  exact parseHunkHeader_parts (natToChars a) (natToChars c) (natToChars b)
    (natToChars d) ctx (natToChars_ne_nil a) (natToChars_ne_nil b)
    (natToChars_digits a) (natToChars_digits c)
    (natToChars_digits b) (natToChars_digits d)

theorem expectChars_eq_append :
    ∀ (es l r : List Char), expectChars es l = some r → l = es ++ r := by
  intro es
  induction es with
  | nil =>
    intro l r h
    simp only [expectChars, Option.some.injEq] at h
    simp [h]
  | cons e es ih =>
    intro l r h
    cases l with
    | nil => cases h
    | cons c t =>
      simp only [expectChars] at h
      by_cases hc : c = e
      · subst hc
        simp only [if_true] at h
        simp [ih t r h]
      · simp [hc] at h

theorem parseHunkHeader_some_shape (l : Line)
    (g1 g2 g3 g4 ctx : List Char)
    (h : parseHunkHeader l = some (g1, g2, g3, g4, ctx)) :
    List.IsSuffix ctx l ∧ isHunkStart l = true := by
  unfold parseHunkHeader at h
  cases he0 : expectChars [ '@', '@', ' ', '-' ] l with
  | none =>
    simp only [he0] at h
    exact Option.noConfusion h
  | some r0 =>
    simp only [he0] at h
    have hl0 : l = [ '@', '@', ' ', '-' ] ++ r0 := expectChars_eq_append _ l r0 he0
    have hhs : isHunkStart l = true := by
      rw [hl0]
      simp [isHunkStart, startsWithL]
    rcases ht1 : takeDigits r0 with ⟨ds1, r1⟩
    simp only [ht1] at h
    have hs1 : List.IsSuffix r1 r0 := by
      have := takeDigits_suffix r0
      rw [ht1] at this
      exact this
    cases ds1 with
    | nil => exact Option.noConfusion h
    | cons c1 g1x =>
      rcases ht2 : takeDigits (skipComma r1) with ⟨g2x, r3⟩
      simp only [ht2] at h
      have hs3 : List.IsSuffix r3 (skipComma r1) := by
        have := takeDigits_suffix (skipComma r1)
        rw [ht2] at this
        exact this
      cases he2 : expectChars [ ' ', '+' ] r3 with
      | none =>
        simp only [he2] at h
        exact Option.noConfusion h
      | some r4 =>
        simp only [he2] at h
        have hs4 : List.IsSuffix r4 r3 := expectChars_suffix _ r3 r4 he2
        rcases ht3 : takeDigits r4 with ⟨ds3, r5⟩
        simp only [ht3] at h
        have hs5 : List.IsSuffix r5 r4 := by
          have := takeDigits_suffix r4
          rw [ht3] at this
          exact this
        cases ds3 with
        | nil => exact Option.noConfusion h
        | cons c3 g3x =>
          rcases ht4 : takeDigits (skipComma r5) with ⟨g4x, r7⟩
          simp only [ht4] at h
          have hs7 : List.IsSuffix r7 (skipComma r5) := by
            have := takeDigits_suffix (skipComma r5)
            rw [ht4] at this
            exact this
          cases he3 : expectChars [ ' ', '@', '@' ] r7 with
          | none =>
            simp only [he3] at h
            exact Option.noConfusion h
          | some ctx2 =>
            simp only [he3, Option.some.injEq, Prod.mk.injEq] at h
            obtain ⟨-, -, -, -, hctx⟩ := h
            subst hctx
            have hs9 : List.IsSuffix ctx2 r7 := expectChars_suffix _ r7 ctx2 he3
            have : List.IsSuffix ctx2 l := by
              rw [hl0]
              exact ((((((((hs9.trans hs7).trans (skipComma_suffix r5)).trans
                hs5).trans hs4).trans hs3).trans
                (skipComma_suffix r1)).trans hs1).trans
                (List.suffix_append [ '@', '@', ' ', '-' ] r0))
            exact ⟨this, hhs⟩

theorem isHunkStart_mkHunkHeader (a c b d : Nat) (ctx : List Char) :
    isHunkStart (mkHunkHeader a c b d ctx) = true := by
  simp [isHunkStart, mkHunkHeader, startsWithL]

theorem notBoundary_mkHunkHeader (a c b d : Nat) (ctx : List Char) :
    notBoundary (mkHunkHeader a c b d ctx) = false := by
  simp [notBoundary, isHunkStart_mkHunkHeader]

theorem notBoundary_nil : notBoundary ([] : Line) = true := by
  simp [notBoundary, isHunkStart, isDiffStart, startsWithL]

theorem processLines_ne_nil : ∀ (ls : List Line), ls ≠ [] → processLines ls ≠ [] := by
  intro ls hne
  cases ls with
  | nil => exact absurd rfl hne
  | cons line rest =>
    by_cases hh : isHunkStart line = true
    · cases hp : parseHunkHeader line with
      | some g =>
        rcases g with ⟨g1, g2, g3, g4, ctx⟩
        rw [processLines_cons_hunk line rest _ hh hp,
          repairHunk_cons_of_parse line _ g1 g2 g3 g4 ctx hp]
        simp
      | none =>
        rw [processLines_cons_copy line rest (Or.inr hp)]
        simp
    · rw [processLines_cons_copy line rest
        (Or.inl (by simpa using hh))]
      simp

theorem processLines_head_boundary (ls : List Line)
    (h : ∀ y ys, ls = y :: ys → notBoundary y = false) :
    ∀ z zs, processLines ls = z :: zs → notBoundary z = false := by
  cases ls with
  | nil =>
    intro z zs hz
    exact absurd hz.symm (by simp [processLines, processLinesAux])
  | cons line rest =>
    have hline : notBoundary line = false := h line rest rfl
    by_cases hh : isHunkStart line = true
    · cases hp : parseHunkHeader line with
      | some g =>
        rcases g with ⟨g1, g2, g3, g4, ctx⟩
        rw [processLines_cons_hunk line rest _ hh hp,
          repairHunk_cons_of_parse line _ g1 g2 g3 g4 ctx hp]
        intro z zs hz
        rw [List.cons_append] at hz
        injection hz with h1 _
        rw [← h1]
        exact notBoundary_mkHunkHeader _ _ _ _ _
      | none =>
        rw [processLines_cons_copy line rest (Or.inr hp)]
        intro z zs hz
        injection hz with h1 _
        rw [← h1]
        exact hline
    · rw [processLines_cons_copy line rest (Or.inl (by simpa using hh))]
      intro z zs hz
      injection hz with h1 _
      rw [← h1]
      exact hline

theorem dropWhile_head_false (p : Line → Bool) (ls : List Line) :
    ls.dropWhile p = [] ∨
      ∃ y ys, ls.dropWhile p = y :: ys ∧ p y = false := by
  induction ls with
  | nil => exact Or.inl rfl
  | cons x t ih =>
    by_cases hx : p x = true
    · rw [List.dropWhile_cons_of_pos hx]
      exact ih
    · right
      refine ⟨x, t, ?_, by simpa using hx⟩
      rw [List.dropWhile_cons_of_neg (by simpa using hx)]

theorem getLast?_cons_cons2 (a b : Line) (l : List Line) :
    (a :: b :: l).getLast? = (b :: l).getLast? := by
  simp [List.getLast?_cons_cons]

theorem filter_last_keep (p : Line → Bool) (xs : List Line) (hne : xs ≠ [])
    (hl : xs.getLast? = some ([] : Line)) (hp : p [] = true) :
    (xs.filter p).getLast? = some ([] : Line) ∧ xs.filter p ≠ [] := by
  have hg : xs.getLast hne = [] := by
    have h2 := List.getLast?_eq_getLast xs hne
    rw [h2] at hl
    exact Option.some.inj hl
  have hsplit : xs.dropLast ++ [([] : Line)] = xs := by
    rw [← hg]
    exact List.dropLast_append_getLast hne
  constructor
  · rw [← hsplit, List.filter_append]
    simp [List.filter_cons, hp]
  · rw [← hsplit, List.filter_append]
    simp [List.filter_cons, hp]

theorem processLines_last : ∀ (n : Nat) (ls : List Line), ls.length ≤ n →
    2 ≤ ls.length → ls.getLast? = some ([] : Line) →
    (processLines ls).getLast? = some ([] : Line) ∧
      2 ≤ (processLines ls).length := by
  intro n
  induction n with
  | zero =>
    intro ls hlen h2 _
    omega
  | succ n ih =>
    intro ls hlen h2 hlast
    cases ls with
    | nil => simp at h2
    | cons line rest =>
      cases rest with
      | nil => simp at h2
      | cons r1 rest1 =>
        have hlast_rest : (r1 :: rest1).getLast? = some ([] : Line) := by
          rw [← getLast?_cons_cons2 line r1 rest1]
          exact hlast
        have hlen_rest : (r1 :: rest1).length ≤ n := by
          simp only [List.length_cons] at hlen
          simp only [List.length_cons]
          omega
        have hcopy : ∀ (hc : processLines (line :: r1 :: rest1) =
              line :: processLines (r1 :: rest1)),
            (processLines (line :: r1 :: rest1)).getLast? = some ([] : Line) ∧
              2 ≤ (processLines (line :: r1 :: rest1)).length := by
          intro hc
          rw [hc]
          cases rest1 with
          | nil =>
            have hr1 : r1 = [] := by simpa using hlast_rest
            subst hr1
            constructor
            · rfl
            · rfl
          | cons w ws =>
            obtain ⟨hL, hLen⟩ := ih (r1 :: w :: ws) hlen_rest (by
              simp only [List.length_cons]; omega) hlast_rest
            have hne2 : processLines (r1 :: w :: ws) ≠ [] :=
              processLines_ne_nil _ (by simp)
            obtain ⟨z, zs, hz⟩ := List.exists_cons_of_ne_nil hne2
            rw [hz] at hL hLen ⊢
            constructor
            · rw [getLast?_cons_cons2]
              exact hL
            · simp only [List.length_cons] at hLen ⊢
              omega
        by_cases hh : isHunkStart line = true
        · cases hp : parseHunkHeader line with
          | some g =>
            rcases g with ⟨g1, g2, g3, g4, ctx⟩
            rw [processLines_cons_hunk line _ _ hh hp,
              repairHunk_cons_of_parse line _ g1 g2 g3 g4 ctx hp]
            rcases dropWhile_head_false notBoundary (r1 :: rest1) with
              hdw | ⟨z, zs, hdw, hzb⟩
            · have htw : (r1 :: rest1).takeWhile notBoundary = r1 :: rest1 := by
                have hsum := List.takeWhile_append_dropWhile notBoundary (r1 :: rest1)
                rw [hdw, List.append_nil] at hsum
                exact hsum
              rw [hdw, htw]
              rw [show processLines ([] : List Line) = [] from rfl, List.append_nil]
              obtain ⟨hfl, hfne⟩ := filter_last_keep (fun l => !(l == [ ' ' ]))
                (r1 :: rest1) (by simp) hlast_rest (by decide)
              obtain ⟨w, ws, hw⟩ := List.exists_cons_of_ne_nil hfne
              rw [hw] at hfl ⊢
              constructor
              · rw [getLast?_cons_cons2]
                exact hfl
              · simp only [List.length_cons]
                omega
            · have hz_ne : z ≠ ([] : Line) := by
                intro hzz
                rw [hzz, notBoundary_nil] at hzb
                cases hzb
              have hlast2 : (z :: zs).getLast? = some ([] : Line) := by
                have hsum := List.takeWhile_append_dropWhile notBoundary (r1 :: rest1)
                rw [hdw] at hsum
                rw [← hsum] at hlast_rest
                rwa [List.getLast?_append_of_ne_nil _ (by simp)] at hlast_rest
              have h2z : 2 ≤ (z :: zs).length := by
                cases zs with
                | nil =>
                  exfalso
                  exact hz_ne (by simpa using hlast2)
                | cons w ws =>
                  simp only [List.length_cons]
                  omega
              have hlenz : (z :: zs).length ≤ n := by
                have hd : ((r1 :: rest1).dropWhile notBoundary).length ≤
                    (r1 :: rest1).length :=
                  (List.dropWhile_sublist notBoundary).length_le
                rw [hdw] at hd
                simp only [List.length_cons] at hd hlen_rest ⊢
                omega
              obtain ⟨hL2, h22⟩ := ih (z :: zs) hlenz h2z hlast2
              rw [hdw]
              have hpne : processLines (z :: zs) ≠ [] :=
                processLines_ne_nil _ (by simp)
              constructor
              · rw [List.getLast?_append_of_ne_nil _ hpne]
                exact hL2
              · rw [List.length_append]
                omega
          | none => exact hcopy (processLines_cons_copy line _ (Or.inr hp))
        · exact hcopy (processLines_cons_copy line _ (Or.inl (by simpa using hh)))

theorem joinLines_concat (ls : List Line) (l : Line) (h : ls ≠ []) :
    joinLines (ls ++ [l]) = joinLines ls ++ '\n' :: l := by
  induction ls with
  | nil => exact absurd rfl h
  | cons x t ih =>
    cases t with
    | nil => simp [joinLines]
    | cons y ts =>
      simp only [List.cons_append, joinLines, List.append_eq]
      rw [show (y :: ts) ++ [l] = y :: (ts ++ [l]) from rfl] at ih
      rw [ih (by simp)]
      simp [List.append_assoc]

theorem splitLines_ne_nil : ∀ (s : List Char), splitLines s ≠ [] := by
  intro s
  induction s with
  | nil => simp [splitLines]
  | cons c rest ih =>
    simp only [splitLines]
    by_cases hc : c = '\n'
    · simp [hc]
    · simp only [hc, if_false]
      cases hsp : splitLines rest with
      | nil => simp
      | cons l ls => simp

theorem splitLines_concat_nl : ∀ (s : List Char),
    splitLines (s ++ [ '\n' ]) = splitLines s ++ [[]] := by
  intro s
  induction s with
  | nil => rfl
  | cons c rest ih =>
    rw [List.cons_append]
    by_cases hc : c = '\n'
    · subst hc
      have e1 : splitLines ('\n' :: (rest ++ [ '\n' ])) =
          [] :: splitLines (rest ++ [ '\n' ]) := by simp [splitLines]
      have e2 : splitLines ('\n' :: rest) = [] :: splitLines rest := by
        simp [splitLines]
      rw [e1, e2, ih]
      simp
    · cases hsp : splitLines rest with
      | nil => exact absurd hsp (splitLines_ne_nil rest)
      | cons l ls =>
        have hsp2 : splitLines (rest ++ [ '\n' ]) = l :: (ls ++ [[]]) := by
          rw [ih, hsp]
          simp
        have e1 : splitLines (c :: (rest ++ [ '\n' ])) = (c :: l) :: (ls ++ [[]]) := by
          simp only [splitLines, hc, if_false, hsp2]
        have e2 : splitLines (c :: rest) = (c :: l) :: ls := by
          simp only [splitLines, hc, if_false, hsp]
        rw [e1, e2]
        simp

theorem joinLines_getLast_nl (ls : List Line) (h2 : 2 ≤ ls.length)
    (hl : ls.getLast? = some ([] : Line)) :
    (joinLines ls).getLast? = some '\n' := by
  have hne : ls ≠ [] := by
    intro h0
    subst h0
    simp at h2
  have hg : ls.getLast hne = [] := by
    have hh := List.getLast?_eq_getLast ls hne
    rw [hh] at hl
    exact Option.some.inj hl
  have hsplit : ls.dropLast ++ [([] : Line)] = ls := by
    rw [← hg]
    exact List.dropLast_append_getLast hne
  have hdne : ls.dropLast ≠ [] := by
    intro h0
    have hlen := congrArg List.length hsplit
    rw [h0] at hlen
    simp at hlen
    omega
  rw [← hsplit, joinLines_concat _ _ hdne]
  rw [show ('\n' :: ([] : Line)) = [ '\n' ] from rfl,
    List.getLast?_append_of_ne_nil _ (by simp)]
  rfl

theorem ensureNL_getLast (p : List Char) : (ensureNL p).getLast? = some '\n' := by
  unfold ensureNL
  by_cases h : p.getLast? = some '\n'
  · simp [h]
  · simp only [h, if_false]
    rw [List.getLast?_append_of_ne_nil _ (by simp)]
    rfl

theorem splitLines_of_ends_nl (s : List Char) (h : s.getLast? = some '\n') :
    (splitLines s).getLast? = some ([] : Line) ∧ 2 ≤ (splitLines s).length := by
  have hne : s ≠ [] := by
    intro h0
    subst h0
    simp at h
  have hg : s.getLast hne = '\n' := by
    have hh := List.getLast?_eq_getLast s hne
    rw [hh] at h
    exact Option.some.inj h
  have hsplit : s.dropLast ++ [ '\n' ] = s := by
    rw [← hg]
    exact List.dropLast_append_getLast hne
  constructor
  · rw [← hsplit, splitLines_concat_nl]
    rw [List.getLast?_append_of_ne_nil _ (by simp)]
    rfl
  · rw [← hsplit, splitLines_concat_nl, List.length_append]
    have hpos : 0 < (splitLines s.dropLast).length :=
      List.length_pos.mpr (splitLines_ne_nil s.dropLast)
    simp only [List.length_cons, List.length_nil]
    omega

theorem repair_patch_getLast (d : List Char) :
    (repair_patch d).getLast? = some '\n' := by
  unfold repair_patch
  obtain ⟨hA, hB⟩ := splitLines_of_ends_nl _ (ensureNL_getLast (removeCRLF d))
  obtain ⟨hC, hD⟩ := processLines_last
    (splitLines (ensureNL (removeCRLF d))).length _ (Nat.le_refl _) hB hA
  exact joinLines_getLast_nl _ hD hC

theorem removeCRLF_eq_self : ∀ (l : List Char), '\r' ∉ l → removeCRLF l = l := by
  intro l
  induction l with
  | nil => intro _; rfl
  | cons c rest ih =>
    intro h
    have hc : c ≠ '\r' := by
      intro hc
      subst hc
      exact h (List.mem_cons_self _ _)
    have hrest : '\r' ∉ rest := fun hr => h (List.mem_cons_of_mem c hr)
    cases rest with
    | nil => rfl
    | cons c2 rest2 =>
      rw [show removeCRLF (c :: c2 :: rest2) =
        (if c = '\r' ∧ c2 = '\n' then '\n' :: removeCRLF rest2
         else c :: removeCRLF (c2 :: rest2)) from rfl]
      rw [if_neg (by intro hand; exact hc hand.1)]
      rw [ih hrest]

theorem crFollowed_cons_cr (rest : List Char) :
    crFollowed ('\r' :: rest) = ((rest.head? == some '\n') && crFollowed rest) := by
  simp [crFollowed]

theorem crFollowed_cons_other (c : Char) (rest : List Char) (hc : c ≠ '\r') :
    crFollowed (c :: rest) = crFollowed rest := by
  simp [crFollowed, hc]

theorem removeCRLF_no_cr : ∀ (n : Nat) (l : List Char), l.length ≤ n →
    crFollowed l = true → '\r' ∉ removeCRLF l := by
  intro n
  induction n with
  | zero =>
    intro l hl _
    have hnil : l = [] := List.eq_nil_of_length_eq_zero (Nat.le_zero.mp hl)
    subst hnil
    simp [removeCRLF]
  | succ n ih =>
    intro l hl hcf
    cases l with
    | nil => simp [removeCRLF]
    | cons c rest =>
      by_cases hcr : c = '\r'
      · subst hcr
        rw [crFollowed_cons_cr, Bool.and_eq_true, beq_iff_eq] at hcf
        obtain ⟨hhead, hcf2⟩ := hcf
        cases rest with
        | nil => simp at hhead
        | cons c2 rest2 =>
          have hc2 : c2 = '\n' := by simpa using hhead
          subst hc2
          rw [show removeCRLF ('\r' :: '\n' :: rest2) =
            '\n' :: removeCRLF rest2 from rfl]
          intro hmem
          rcases List.mem_cons.mp hmem with h1 | h1
          · exact absurd h1 (by decide)
          · have hcf3 : crFollowed rest2 = true := by
              rwa [crFollowed_cons_other '\n' rest2 (by decide)] at hcf2
            exact ih rest2 (by simp only [List.length_cons] at hl; omega) hcf3 h1
      · rw [crFollowed_cons_other c rest hcr] at hcf
        cases rest with
        | nil =>
          intro hmem
          rcases List.mem_cons.mp hmem with h1 | h1
          · exact hcr h1.symm
          · simp at h1
        | cons c2 rest2 =>
          rw [show removeCRLF (c :: c2 :: rest2) =
            (if c = '\r' ∧ c2 = '\n' then '\n' :: removeCRLF rest2
             else c :: removeCRLF (c2 :: rest2)) from rfl]
          rw [if_neg (by intro hand; exact hcr hand.1)]
          intro hmem
          rcases List.mem_cons.mp hmem with h1 | h1
          · exact hcr h1.symm
          · exact ih (c2 :: rest2)
              (by simp only [List.length_cons] at hl ⊢; omega) hcf h1

theorem mem_splitLines_mem : ∀ (s : List Char) (l : Line), l ∈ splitLines s →
    ∀ c ∈ l, c ∈ s := by
  intro s
  induction s with
  | nil =>
    intro l hl c hc
    simp [splitLines] at hl
    subst hl
    simp at hc
  | cons c0 rest ih =>
    intro l hl c hc
    simp only [splitLines] at hl
    by_cases hc0 : c0 = '\n'
    · rw [if_pos hc0] at hl
      rcases List.mem_cons.mp hl with h1 | h1
      · subst h1
        simp at hc
      · exact List.mem_cons_of_mem c0 (ih l h1 c hc)
    · rw [if_neg hc0] at hl
      cases hsp : splitLines rest with
      | nil => exact absurd hsp (splitLines_ne_nil rest)
      | cons l0 ls0 =>
        rw [hsp] at hl
        rcases List.mem_cons.mp hl with h1 | h1
        · subst h1
          rcases List.mem_cons.mp hc with h2 | h2
          · subst h2
            exact List.mem_cons_self c rest
          · have hml0 : l0 ∈ splitLines rest := by
              rw [hsp]
              exact List.mem_cons_self l0 ls0
            exact List.mem_cons_of_mem c0 (ih l0 hml0 c h2)
        · have hml : l ∈ splitLines rest := by
            rw [hsp]
            exact List.mem_cons_of_mem l0 h1
          exact List.mem_cons_of_mem c0 (ih l hml c hc)

theorem noNL_splitLines : ∀ (s : List Char) (l : Line), l ∈ splitLines s →
    '\n' ∉ l := by
  intro s
  induction s with
  | nil =>
    intro l hl
    simp [splitLines] at hl
    subst hl
    simp
  | cons c0 rest ih =>
    intro l hl
    simp only [splitLines] at hl
    by_cases hc0 : c0 = '\n'
    · rw [if_pos hc0] at hl
      rcases List.mem_cons.mp hl with h1 | h1
      · subst h1
        simp
      · exact ih l h1
    · rw [if_neg hc0] at hl
      cases hsp : splitLines rest with
      | nil => exact absurd hsp (splitLines_ne_nil rest)
      | cons l0 ls0 =>
        rw [hsp] at hl
        rcases List.mem_cons.mp hl with h1 | h1
        · subst h1
          intro hmem
          rcases List.mem_cons.mp hmem with h2 | h2
          · exact hc0 h2.symm
          · have hml0 : l0 ∈ splitLines rest := by
              rw [hsp]
              exact List.mem_cons_self l0 ls0
            exact ih l0 hml0 h2
        · have hml : l ∈ splitLines rest := by
            rw [hsp]
            exact List.mem_cons_of_mem l0 h1
          exact ih l hml

theorem mem_ensureNL (p : List Char) (c : Char) (h : c ∈ ensureNL p) :
    c ∈ p ∨ c = '\n' := by
  unfold ensureNL at h
  by_cases hp : p.getLast? = some '\n'
  · rw [if_pos hp] at h
    exact Or.inl h
  · rw [if_neg hp] at h
    rcases List.mem_append.mp h with h1 | h1
    · exact Or.inl h1
    · simp at h1
      exact Or.inr h1

theorem mem_joinLines (x : Char) : ∀ (ls : List Line), x ∈ joinLines ls →
    x = '\n' ∨ ∃ l ∈ ls, x ∈ l := by
  intro ls
  induction ls with
  | nil =>
    intro h
    simp [joinLines] at h
  | cons l t ih =>
    intro h
    cases t with
    | nil =>
      right
      exact ⟨l, List.mem_cons_self l [], by simpa [joinLines] using h⟩
    | cons l2 ts =>
      rw [show joinLines (l :: l2 :: ts) = l ++ '\n' :: joinLines (l2 :: ts)
        from rfl] at h
      rcases List.mem_append.mp h with h1 | h1
      · exact Or.inr ⟨l, List.mem_cons_self l _, h1⟩
      · rcases List.mem_cons.mp h1 with h2 | h2
        · exact Or.inl h2
        · rcases ih h2 with h3 | ⟨l3, hl3, hx3⟩
          · exact Or.inl h3
          · exact Or.inr ⟨l3, List.mem_cons_of_mem l hl3, hx3⟩

theorem mem_mkHunkHeader (x : Char) (a c b d : Nat) (ctx : List Char)
    (hx : x ∈ mkHunkHeader a c b d ctx) :
    x ∈ ctx ∨ x.isDigit = true ∨ x ∈ [ '@', ' ', '-', '+', ',' ] := by
  simp only [mkHunkHeader, List.mem_cons, List.mem_append] at hx
  rcases hx with rfl | rfl | rfl | rfl | hx
  · right; right; simp
  · right; right; simp
  · right; right; simp
  · right; right; simp
  rcases hx with hx | hx
  · exact Or.inr (Or.inl (natToChars_digits a x hx))
  rcases hx with rfl | hx
  · right; right; simp
  rcases hx with hx | hx
  · exact Or.inr (Or.inl (natToChars_digits c x hx))
  rcases hx with rfl | rfl | hx
  · right; right; simp
  · right; right; simp
  rcases hx with hx | hx
  · exact Or.inr (Or.inl (natToChars_digits b x hx))
  rcases hx with rfl | hx
  · right; right; simp
  rcases hx with hx | hx
  · exact Or.inr (Or.inl (natToChars_digits d x hx))
  rcases hx with rfl | rfl | rfl | hx
  · right; right; simp
  · right; right; simp
  · right; right; simp
  · exact Or.inl hx

theorem processLines_no_char (x : Char)
    (hxd : x.isDigit = false) (hxs : x ∉ [ '@', ' ', '-', '+', ',' ]) :
    ∀ (n : Nat) (ls : List Line), ls.length ≤ n →
    (∀ l ∈ ls, x ∉ l) → ∀ l ∈ processLines ls, x ∉ l := by
  intro n
  induction n with
  | zero =>
    intro ls hlen _ l hl
    have hnil : ls = [] := List.eq_nil_of_length_eq_zero (Nat.le_zero.mp hlen)
    subst hnil
    simp [processLines, processLinesAux] at hl
  | succ n ih =>
    intro ls hlen hno l hl
    cases ls with
    | nil => simp [processLines, processLinesAux] at hl
    | cons line rest =>
      have hline : x ∉ line := hno line (List.mem_cons_self _ _)
      have hrest : ∀ l2 ∈ rest, x ∉ l2 :=
        fun l2 h2 => hno l2 (List.mem_cons_of_mem _ h2)
      have hlenr : rest.length ≤ n := by
        simp only [List.length_cons] at hlen
        omega
      by_cases hh : isHunkStart line = true
      · cases hp : parseHunkHeader line with
        | some g =>
          rcases g with ⟨g1, g2, g3, g4, ctx⟩
          rw [processLines_cons_hunk line rest _ hh hp,
            repairHunk_cons_of_parse line _ g1 g2 g3 g4 ctx hp] at hl
          rcases List.mem_append.mp hl with h1 | h1
          · rcases List.mem_cons.mp h1 with h2 | h2
            · subst h2
              intro hximem
              rcases mem_mkHunkHeader x _ _ _ _ _ hximem with hc | hdig | hs
              · have hsuf := (parseHunkHeader_some_shape line g1 g2 g3 g4 ctx hp).1
                exact hline (hsuf.subset hc)
              · simp [hdig] at hxd
              · exact hxs hs
            · have hbody := List.mem_of_mem_filter h2
              have hmemr : l ∈ rest :=
                (List.takeWhile_sublist notBoundary).subset hbody
              exact hrest l hmemr
          · have hlen2 : (rest.dropWhile notBoundary).length ≤ n :=
              Nat.le_trans (List.dropWhile_sublist notBoundary).length_le hlenr
            exact ih (rest.dropWhile notBoundary) hlen2
              (fun l2 h2 => hrest l2 ((List.dropWhile_sublist notBoundary).subset h2))
              l h1
        | none =>
          rw [processLines_cons_copy line rest (Or.inr hp)] at hl
          rcases List.mem_cons.mp hl with h1 | h1
          · subst h1
            exact hline
          · exact ih rest hlenr hrest l h1
      · rw [processLines_cons_copy line rest (Or.inl (by simpa using hh))] at hl
        rcases List.mem_cons.mp hl with h1 | h1
        · subst h1
          exact hline
        · exact ih rest hlenr hrest l h1

theorem repair_patch_no_cr (d : List Char) (h : '\r' ∉ removeCRLF d) :
    '\r' ∉ repair_patch d := by
  unfold repair_patch
  intro hmem
  rcases mem_joinLines '\r' _ hmem with h1 | ⟨l, hl, hx⟩
  · exact absurd h1 (by decide)
  · have hno : ∀ l2 ∈ splitLines (ensureNL (removeCRLF d)), '\r' ∉ l2 := by
      intro l2 h2 hmem2
      rcases mem_ensureNL (removeCRLF d) '\r'
        (mem_splitLines_mem _ l2 h2 '\r' hmem2) with h3 | h3
      · exact h h3
      · exact absurd h3 (by decide)
    exact processLines_no_char '\r' (by decide) (by decide) _ _
      (Nat.le_refl _) hno l hl hx

theorem containsSub_crlf_mem (l : List Char)
    (h : containsSub l [ '\r', '\n' ] = true) : '\r' ∈ l := by
  induction l with
  | nil => simp [containsSub, startsWithL] at h
  | cons c t ih =>
    rw [show containsSub (c :: t) [ '\r', '\n' ] =
      (startsWithL [ '\r', '\n' ] (c :: t) || containsSub t [ '\r', '\n' ])
      from rfl] at h
    rcases Bool.or_eq_true_iff.mp h with h1 | h1
    · simp only [startsWithL, Bool.and_eq_true, beq_iff_eq] at h1
      rw [← h1.1]
      exact List.mem_cons_self _ _
    · exact List.mem_cons_of_mem c (ih h1)

theorem no_cr_no_crlf (l : List Char) (h : '\r' ∉ l) :
    containsSub l [ '\r', '\n' ] = false := by
  cases hcs : containsSub l [ '\r', '\n' ]
  · rfl
  · exact absurd (containsSub_crlf_mem l hcs) h

theorem validate_patch_valid_iff (p : List Char) :
    (validate_patch p).valid = true ↔ (validate_patch p).issues = [] := by
  simp only [validate_patch]
  simp [List.length_eq_zero]

theorem validate_patch_crlf (p : List Char)
    (h : containsSub p [ '\r', '\n' ] = true) :
    (validate_patch p).valid = false ∧
      "Contains CRLF line endings (should be LF)" ∈ (validate_patch p).issues := by
  simp only [validate_patch, h]
  constructor
  · simp
  · simp

theorem splitLines_no_nl (l : List Char) (h : '\n' ∉ l) : splitLines l = [l] := by
  induction l with
  | nil => rfl
  | cons c t ih =>
    have hc : c ≠ '\n' := by
      intro hcEq
      apply h
      rw [hcEq]
      exact List.mem_cons_self _ _
    simp only [splitLines, if_neg hc]
    rw [ih (fun hm => h (List.mem_cons_of_mem c hm))]

theorem splitLines_append_nl_cons (l : Line) (s : List Char) (h : '\n' ∉ l) :
    splitLines (l ++ '\n' :: s) = l :: splitLines s := by
  induction l with
  | nil => simp [splitLines]
  | cons c t ih =>
    have hc : c ≠ '\n' := by
      intro hcEq
      apply h
      rw [hcEq]
      exact List.mem_cons_self _ _
    simp only [List.cons_append, splitLines, if_neg hc, List.append_eq]
    rw [ih (fun hm => h (List.mem_cons_of_mem c hm))]

theorem splitLines_joinLines : ∀ (ls : List Line), ls ≠ [] →
    (∀ l ∈ ls, '\n' ∉ l) → splitLines (joinLines ls) = ls := by
  intro ls
  induction ls with
  | nil => intro h; exact absurd rfl h
  | cons l t ih =>
    intro _ hno
    cases t with
    | nil =>
      rw [show joinLines [l] = l from rfl]
      exact splitLines_no_nl l (hno l (List.mem_cons_self _ _))
    | cons l2 ts =>
      rw [show joinLines (l :: l2 :: ts) = l ++ '\n' :: joinLines (l2 :: ts)
        from rfl]
      rw [splitLines_append_nl_cons l _ (hno l (List.mem_cons_self _ _))]
      rw [ih (by simp) (fun x hx => hno x (List.mem_cons_of_mem l hx))]

theorem takeWhile_append_all (p : Line → Bool) : ∀ (xs ys : List Line),
    (∀ x ∈ xs, p x = true) →
    (xs ++ ys).takeWhile p = xs ++ ys.takeWhile p ∧
      (xs ++ ys).dropWhile p = ys.dropWhile p := by
  intro xs ys
  induction xs with
  | nil => intro _; simp
  | cons x t ih =>
    intro h
    have hx : p x = true := h x (List.mem_cons_self _ _)
    obtain ⟨h1, h2⟩ := ih (fun y hy => h y (List.mem_cons_of_mem x hy))
    constructor
    · rw [List.cons_append, List.takeWhile_cons_of_pos hx, h1, List.cons_append]
    · rw [List.cons_append, List.dropWhile_cons_of_pos hx, h2]

theorem takeWhile_eq_nil_head_false (p : Line → Bool) (ls : List Line)
    (h : ∀ z zs, ls = z :: zs → p z = false) :
    ls.takeWhile p = [] ∧ ls.dropWhile p = ls := by
  cases ls with
  | nil => simp
  | cons z zs =>
    have hz := h z zs rfl
    constructor
    · rw [List.takeWhile_cons_of_neg (by simp [hz])]
    · rw [List.dropWhile_cons_of_neg (by simp [hz])]

theorem processLines_idem : ∀ (n : Nat) (ls : List Line), ls.length ≤ n →
    (∀ l ∈ ls, l ≠ [ ' ' ]) →
    processLines (processLines ls) = processLines ls := by
  intro n
  induction n with
  | zero =>
    intro ls hlen _
    have hnil : ls = [] := List.eq_nil_of_length_eq_zero (Nat.le_zero.mp hlen)
    subst hnil
    rfl
  | succ n ih =>
    intro ls hlen hsp
    cases ls with
    | nil => rfl
    | cons line rest =>
      have hlenr : rest.length ≤ n := by
        simp only [List.length_cons] at hlen
        omega
      have hsp_rest : ∀ l ∈ rest, l ≠ [ ' ' ] :=
        fun l h => hsp l (List.mem_cons_of_mem line h)
      by_cases hh : isHunkStart line = true
      · cases hp : parseHunkHeader line with
        | some g =>
          rcases g with ⟨g1, g2, g3, g4, ctx⟩
          rw [processLines_cons_hunk line rest _ hh hp,
            repairHunk_cons_of_parse line _ g1 g2 g3 g4 ctx hp]
          have hfil : (rest.takeWhile notBoundary).filter
              (fun l => !(l == [ ' ' ])) = rest.takeWhile notBoundary := by
            apply List.filter_eq_self.mpr
            intro a ha
            have hmem : a ∈ rest := (List.takeWhile_sublist notBoundary).subset ha
            simpa using hsp_rest a hmem
          rw [hfil]
          have hparse2 := parseHunkHeader_mkHunkHeader (natFromDigits g1)
            (countOld (rest.takeWhile notBoundary)) (natFromDigits g3)
            (countNew (rest.takeWhile notBoundary)) ctx
          rw [List.cons_append]
          rw [processLines_cons_hunk _ _ _
            (isHunkStart_mkHunkHeader _ _ _ _ _) hparse2]
          have hbodyall : ∀ x ∈ rest.takeWhile notBoundary,
              notBoundary x = true := fun x hx => List.mem_takeWhile_imp hx
          obtain ⟨htw, hdw⟩ := takeWhile_append_all notBoundary
            (rest.takeWhile notBoundary)
            (processLines (rest.dropWhile notBoundary)) hbodyall
          have hboundhead : ∀ z zs,
              processLines (rest.dropWhile notBoundary) = z :: zs →
              notBoundary z = false := by
            apply processLines_head_boundary
            intro y ys hy
            rcases dropWhile_head_false notBoundary rest with hnil | ⟨z0, zs0, hz0, hzb0⟩
            · rw [hnil] at hy
              exact absurd hy.symm (by simp)
            · rw [hz0] at hy
              injection hy with hy1 _
              rw [← hy1]
              exact hzb0
          obtain ⟨htw0, hdw0⟩ := takeWhile_eq_nil_head_false notBoundary
            (processLines (rest.dropWhile notBoundary)) hboundhead
          rw [htw, hdw, htw0, hdw0, List.append_nil]
          rw [repairHunk_cons_of_parse _ _ _ _ _ _ _ hparse2]
          rw [natFromDigits_natToChars, natFromDigits_natToChars, hfil]
          rw [ih (rest.dropWhile notBoundary)
            (Nat.le_trans (List.dropWhile_sublist notBoundary).length_le hlenr)
            (fun l h => hsp_rest l ((List.dropWhile_sublist notBoundary).subset h))]
          rw [List.cons_append]
        | none =>
          rw [processLines_cons_copy line rest (Or.inr hp),
            processLines_cons_copy line (processLines rest) (Or.inr hp),
            ih rest hlenr hsp_rest]
      · have hh2 : isHunkStart line = false := by simpa using hh
        rw [processLines_cons_copy line rest (Or.inl hh2),
          processLines_cons_copy line (processLines rest) (Or.inl hh2),
          ih rest hlenr hsp_rest]

theorem splitLines_ensureNL (d : List Char) :
    splitLines (ensureNL d) = splitLines d ∨
      splitLines (ensureNL d) = splitLines d ++ [[]] := by
  unfold ensureNL
  by_cases h : d.getLast? = some '\n'
  · rw [if_pos h]
    exact Or.inl rfl
  · rw [if_neg h]
    exact Or.inr (splitLines_concat_nl d)

theorem repair_patch_idem (d : List Char) (hcr : '\r' ∉ d)
    (hsp : ∀ l ∈ splitLines d, l ≠ [ ' ' ]) :
    repair_patch (repair_patch d) = repair_patch d := by
  have h0 : removeCRLF d = d := removeCRLF_eq_self d hcr
  have hspE : ∀ l ∈ splitLines (ensureNL d), l ≠ [ ' ' ] := by
    rcases splitLines_ensureNL d with he | he
    · rw [he]
      exact hsp
    · rw [he]
      intro l hl
      rcases List.mem_append.mp hl with h1 | h1
      · exact hsp l h1
      · simp at h1
        subst h1
        simp
  have hRnoCr : '\r' ∉ repair_patch d :=
    repair_patch_no_cr d (by rw [h0]; exact hcr)
  have hRlast := repair_patch_getLast d
  have hRdef : repair_patch d =
      joinLines (processLines (splitLines (ensureNL d))) := by
    unfold repair_patch
    rw [h0]
  have hnoNL : ∀ l ∈ processLines (splitLines (ensureNL d)), '\n' ∉ l :=
    fun l hl => processLines_no_char '\n' (by decide) (by decide) _ _
      (Nat.le_refl _) (fun l2 h2 => noNL_splitLines _ l2 h2) l hl
  conv_lhs => unfold repair_patch
  rw [h0, ← hRdef]
  rw [removeCRLF_eq_self _ hRnoCr]
  rw [show ensureNL (repair_patch d) = repair_patch d from by
    unfold ensureNL; rw [if_pos hRlast]]
  rw [hRdef]
  rw [splitLines_joinLines _ (processLines_ne_nil _ (splitLines_ne_nil _)) hnoNL]
  rw [processLines_idem (splitLines (ensureNL d)).length _ (Nat.le_refl _) hspE]

/-- Claim C1: the claim states that after repair every rebuilt hunk header
declares an oldCount equal to the context plus removed lines of the body as
emitted, and a newCount equal to the context plus added lines as emitted.
The code counts a single-space context line and then drops it from the
emitted body, so on the input below the rebuilt header declares counts one
and one while the emitted body holds no context, removed or added line:
the declared counts disagree with the emitted body, exhibiting the bug. -/
theorem claim1_count_invariant_violated :
    repair_patch (("@@ -1,1 +1,1 @@\n \n").data) = ("@@ -1,1 +1,1 @@\n").data ∧
    hunksOf (splitLines (repair_patch (("@@ -1,1 +1,1 @@\n \n").data))) =
      [((("@@ -1,1 +1,1 @@").data), [[]])] ∧
    parseHunkHeader (("@@ -1,1 +1,1 @@").data) =
      some ([ '1' ], [ '1' ], [ '1' ], [ '1' ], []) ∧
    natFromDigits [ '1' ] = 1 ∧
    countOld [[]] = 0 ∧ countNew [[]] = 0 := by
  decide

/-- Claim C2, counterexample: repair is not idempotent as claimed; on the
one-character input consisting of a bare carriage return, the first pass
appends a line feed, creating a CRLF pair that the second pass removes. -/
theorem claim2_idem_counterexample :
    repair_patch (repair_patch [ '\r' ]) ≠ repair_patch [ '\r' ] := by
  decide

/-- Claim C2 (amended): repair is idempotent on every diff text that
contains no carriage return and no line consisting of exactly one space;
the second pass then recomputes the same counts and changes nothing. -/
theorem claim2_repair_idem (d : List Char) (hcr : '\r' ∉ d)
    (hsp : ∀ l ∈ splitLines d, l ≠ [ ' ' ]) :
    repair_patch (repair_patch d) = repair_patch d :=
  repair_patch_idem d hcr hsp

/-- Claim C2, witness: the amended idempotence applied to a concrete
well-formed diff. -/
theorem claim2_repair_idem_witness :
    repair_patch (repair_patch
      (("diff --git a/f b/f\n--- a/f\n+++ b/f\n@@ -1,2 +1,2 @@\n ctx\n-a\n+b\n").data)) =
    repair_patch
      (("diff --git a/f b/f\n--- a/f\n+++ b/f\n@@ -1,2 +1,2 @@\n ctx\n-a\n+b\n").data) :=
  claim2_repair_idem _ (by decide) (by decide)

/-- Claim C5, counterexample: repair does not always end with exactly one
line feed; an input already ending in two line feeds is returned with both,
so a line feed immediately precedes the final one. -/
theorem claim5_exactly_one_lf_counterexample :
    repair_patch (("a\n\n").data) = ("a\n\n").data ∧
    endsExactlyOneLF (repair_patch (("a\n\n").data)) = false := by
  decide

/-- Claim C5 (amended): repair always ends with a line feed (at least one
final line feed, though not always exactly one). -/
theorem claim5_repair_ends_lf (d : List Char) :
    (repair_patch d).getLast? = some '\n' :=
  repair_patch_getLast d

/-- Claim C6, counterexample: on the input made of a carriage return
followed by a CRLF pair, the single left-to-right replace pass rejoins the
leading carriage return with the produced line feed, so the repaired text
still contains a CRLF sequence even though the input contained one. -/
theorem claim6_crlf_counterexample :
    containsSub (("\r\r\n").data) [ '\r', '\n' ] = true ∧
    containsSub (repair_patch (("\r\r\n").data)) [ '\r', '\n' ] = true := by
  decide

/-- Claim C6 (amended): any text containing CRLF yields the CRLF issue
from validate, hence is invalid; and whenever every carriage return of the
input is immediately followed by a line feed, the repaired text contains no
carriage return at all, hence no CRLF. -/
theorem claim6_crlf_validate_and_repair (d : List Char) :
    (containsSub d [ '\r', '\n' ] = true →
      (validate_patch d).valid = false ∧
        "Contains CRLF line endings (should be LF)" ∈ (validate_patch d).issues) ∧
    (crFollowed d = true →
      '\r' ∉ repair_patch d ∧
        containsSub (repair_patch d) [ '\r', '\n' ] = false) := by
  constructor
  · exact fun h => validate_patch_crlf d h
  · intro h
    have hno : '\r' ∉ repair_patch d :=
      repair_patch_no_cr d (removeCRLF_no_cr d.length d (Nat.le_refl _) h)
    exact ⟨hno, no_cr_no_crlf _ hno⟩

/-- Claim C6, witness: both parts applied to a concrete text with one
well-formed CRLF pair. -/
theorem claim6_crlf_witness :
    ((validate_patch (("a\r\nb").data)).valid = false ∧
      "Contains CRLF line endings (should be LF)" ∈
        (validate_patch (("a\r\nb").data)).issues) ∧
    ('\r' ∉ repair_patch (("a\r\nb").data) ∧
      containsSub (repair_patch (("a\r\nb").data)) [ '\r', '\n' ] = false) :=
  ⟨(claim6_crlf_validate_and_repair _).1 (by decide),
   (claim6_crlf_validate_and_repair _).2 (by decide)⟩

/-- Claim C7: validate is a total function whose valid flag is true exactly
when the issues list is empty, and on the concrete patch lacking only the
diff --git header it reports invalid with exactly that issue. -/
theorem claim7_validate_total_and_example :
    (∀ p : List Char,
      ((validate_patch p).valid = true ↔ (validate_patch p).issues = [])) ∧
    validate_patch (("--- a/f\n+++ b/f\n@@ -1,1 +1,1 @@\n-a\n+b").data) =
      ⟨false, ["Missing \x27diff --git\x27 header"], false, true⟩ := by
  constructor
  · exact validate_patch_valid_iff
  · decide

/-- Claim C3: whenever apply returns a failure result, the working tree is
unchanged, and the trace shows either that the non-mutating check passed
(so the mutating step legitimately ran) or that only the check ran with the
failure carrying the raw check diagnostic.  The hypothesis records the
git contract that a mutating apply that raises leaves the tree unchanged;
the check step is non-mutating by construction of the model. -/
theorem claim3_apply_failure_preserves_tree {Tree : Type} (g : GitApply Tree)
    (t : Tree) (patch : List Char)
    (hAtomic : g.realRaises t patch = true → g.realTreeAfter t patch = t)
    (hfail : (apply_patch g t patch).2.1.success = false) :
    (apply_patch g t patch).1 = t ∧
    (g.checkReturn t patch = 0 ∨
      ((apply_patch g t patch).2.2 = [ApplyCmd.applyCheck] ∧
        (apply_patch g t patch).2.1.error = some (g.checkStderr t patch))) := by
  unfold apply_patch at hfail ⊢
  by_cases hc : g.checkReturn t patch = 0
  · rw [if_pos hc] at hfail ⊢
    by_cases hr : g.realRaises t patch = true
    · rw [if_pos hr] at hfail ⊢
      exact ⟨hAtomic hr, Or.inl hc⟩
    · rw [if_neg hr] at hfail
      simp at hfail
  · rw [if_neg hc] at hfail ⊢
    exact ⟨rfl, Or.inr ⟨rfl, rfl⟩⟩

/-- Claim C3, witness: the theorem applied to a concrete one-state model
whose check run fails with returncode one. -/
theorem claim3_apply_failure_witness :
    (apply_patch
      (⟨fun _ _ => 1, fun _ _ => [ 'e' ], fun _ _ => false,
        fun t _ => t, fun _ _ => []⟩ : GitApply Nat) 0 []).1 = 0 ∧
    ((⟨fun _ _ => 1, fun _ _ => [ 'e' ], fun _ _ => false,
        fun t _ => t, fun _ _ => []⟩ : GitApply Nat).checkReturn 0 [] = 0 ∨
      ((apply_patch
        (⟨fun _ _ => 1, fun _ _ => [ 'e' ], fun _ _ => false,
          fun t _ => t, fun _ _ => []⟩ : GitApply Nat) 0 []).2.2 =
          [ApplyCmd.applyCheck] ∧
        (apply_patch
          (⟨fun _ _ => 1, fun _ _ => [ 'e' ], fun _ _ => false,
            fun t _ => t, fun _ _ => []⟩ : GitApply Nat) 0 []).2.1.error =
          some ((⟨fun _ _ => 1, fun _ _ => [ 'e' ], fun _ _ => false,
            fun t _ => t, fun _ _ => []⟩ : GitApply Nat).checkStderr 0 []))) :=
  claim3_apply_failure_preserves_tree _ 0 []
    (fun h => absurd h (by decide)) (by decide)

/-- Claim C4: the claim states that a failed get_repo leaves no directory
at the derived cache path, so a later call cannot wrongly reuse it.  In the
code, when the clone succeeds but both checkout attempts fail, the error
propagates while the cloned directory remains, and the next call with the
same pair takes the cache-hit branch and returns the stale slot without
cloning or checking out: the cleanup the claim requires is absent. -/
theorem claim4_failed_checkout_leaves_cached_dir :
    get_repo (CloneEnv.mk false ProcOutcome.ok ProcOutcome.ok false false true false)
        (("cache").data) (("org/repo").data) (("0123456789abcdef").data) =
      ⟨Except.error RepoError.checkoutFailed, true, true, true⟩ ∧
    get_repo (CloneEnv.mk true ProcOutcome.ok ProcOutcome.ok false false true false)
        (("cache").data) (("org/repo").data) (("0123456789abcdef").data) =
      ⟨Except.ok (derivePath (("cache").data) (("org/repo").data)
        (("0123456789abcdef").data)), true, false, false⟩ := by
  constructor
  · rfl
  · rfl

/-- Claim C8: the derived cache path is a deterministic function of the
repository name and commit hash, independent of the environment: a first
call on a cache miss that succeeds performs the clone, leaves the
directory in place, and a second call finding the directory returns the
identical path immediately without cloning or checking out. -/
theorem claim8_cache_idempotent (env : CloneEnv)
    (cacheDir repoName commit p : List Char)
    (hmiss : env.cachedAtPath = false)
    (hok : (get_repo env cacheDir repoName commit).result = Except.ok p) :
    p = derivePath cacheDir repoName commit ∧
    (get_repo env cacheDir repoName commit).cloned = true ∧
    (get_repo env cacheDir repoName commit).dirAtPath = true ∧
    get_repo (CloneEnv.mk true env.cloneShallow env.cloneFull
        env.leftoverOnFail env.checkoutFirst env.fetchDeep env.checkoutSecond)
        cacheDir repoName commit =
      ⟨Except.ok (derivePath cacheDir repoName commit), true, false, false⟩ := by
  rcases env with ⟨cached, cs, cf, lo, c1, fd, c2⟩
  simp only at hmiss
  subst hmiss
  cases cs <;> cases cf <;> cases c1 <;> cases fd <;> cases c2 <;>
    simp_all [get_repo, checkoutPhase]

/-- Claim C8, witness: a concrete cold-start environment whose clone and
first checkout succeed. -/
theorem claim8_cache_idempotent_witness :
    derivePath (("c").data) (("o/r").data) (("0123456789").data) =
      derivePath (("c").data) (("o/r").data) (("0123456789").data) ∧
    (get_repo (CloneEnv.mk false ProcOutcome.ok ProcOutcome.ok false true true true)
      (("c").data) (("o/r").data) (("0123456789").data)).cloned = true ∧
    (get_repo (CloneEnv.mk false ProcOutcome.ok ProcOutcome.ok false true true true)
      (("c").data) (("o/r").data) (("0123456789").data)).dirAtPath = true ∧
    get_repo (CloneEnv.mk true ProcOutcome.ok ProcOutcome.ok false true true true)
        (("c").data) (("o/r").data) (("0123456789").data) =
      ⟨Except.ok (derivePath (("c").data) (("o/r").data) (("0123456789").data)),
        true, false, false⟩ := by
  have h := claim8_cache_idempotent
    (CloneEnv.mk false ProcOutcome.ok ProcOutcome.ok false true true true)
    (("c").data) (("o/r").data) (("0123456789").data)
    (derivePath (("c").data) (("o/r").data) (("0123456789").data))
    (by decide) (by decide)
  exact ⟨rfl, h.2.1, h.2.2.1, h.2.2.2⟩

/-- Claim C9: reset_repo performs exactly the discard-tracked-changes step
followed by the remove-untracked step in that order, runs the second step
only when the first succeeded, returns normally exactly when both steps
succeed, and otherwise propagates the failure. -/
theorem claim9_reset_two_steps_propagates (resetOk cleanOk : Bool) :
    ((reset_repo resetOk cleanOk).1 = Except.ok () ↔
      resetOk = true ∧ cleanOk = true) ∧
    (reset_repo resetOk cleanOk).2 =
      (if resetOk then [ResetStep.resetHard, ResetStep.cleanFdx]
       else [ResetStep.resetHard]) := by
  cases resetOk <;> cases cleanOk <;> decide

/-- Claim C10: the derived cache path uses only the first eight characters
of the commit hash, so two distinct commits agreeing on those eight
characters map to the same slot, and a second call finding that slot
cached returns it for the second commit without cloning or checking out. -/
theorem claim10_commit_prefix_collision (cacheDir repoName c1 c2 : List Char)
    (env : CloneEnv) (hne : c1 ≠ c2) (h8 : c1.take 8 = c2.take 8)
    (hcache : env.cachedAtPath = true) :
    derivePath cacheDir repoName c1 = derivePath cacheDir repoName c2 ∧
    get_repo env cacheDir repoName c2 =
      ⟨Except.ok (derivePath cacheDir repoName c1), true, false, false⟩ := by
  have hp : derivePath cacheDir repoName c1 = derivePath cacheDir repoName c2 := by
    unfold derivePath
    rw [h8]
  refine ⟨hp, ?_⟩
  rw [hp]
  unfold get_repo
  rw [if_pos hcache]

/-- Claim C10, witness: two distinct ten-character commit hashes sharing
their first eight characters, with the slot already cached. -/
theorem claim10_commit_prefix_collision_witness :
    derivePath (("c").data) (("o/r").data) (("aaaaaaaa01").data) =
      derivePath (("c").data) (("o/r").data) (("aaaaaaaa02").data) ∧
    get_repo (CloneEnv.mk true ProcOutcome.ok ProcOutcome.ok false true true true)
        (("c").data) (("o/r").data) (("aaaaaaaa02").data) =
      ⟨Except.ok (derivePath (("c").data) (("o/r").data) (("aaaaaaaa01").data)),
        true, false, false⟩ :=
  claim10_commit_prefix_collision (("c").data) (("o/r").data)
    (("aaaaaaaa01").data) (("aaaaaaaa02").data)
    (CloneEnv.mk true ProcOutcome.ok ProcOutcome.ok false true true true)
    (by decide) (by decide) rfl
